import Mathlib

/-!
Shallow embedding of the `gowc` word-count utility (src/main.go) and proofs
of its specification claims.

A byte stream is modelled as a `List Nat` (each element a byte value 0..255);
the chunked reading of `count` is modelled by passing the stream as a list of
chunks, exactly as successive `br.Read` calls deliver it.
-/

namespace Gowc

/-- Counts holds the line, word, and byte counts (Go struct `Counts`,
three `int64` fields). -/
structure Counts where
  lines : Int
  words : Int
  bytes : Int
deriving DecidableEq, Repr

/-- Flags holds the boolean flags indicating which counts to display
(Go struct `Flags`). -/
structure Flags where
  showLines : Bool
  showWords : Bool
  showBytes : Bool
deriving DecidableEq, Repr

/-- Byte-wise whitespace test: `unicode.IsSpace(rune(char))` applied to a
single byte `char` (src/main.go line 63).  For byte values 0..255 the Go
predicate holds exactly for tab (9), LF (10), VT (11), FF (12), CR (13),
space (32), NEL (0x85 = 133) and NBSP (0xA0 = 160). -/
def isSpace (b : Nat) : Bool :=
  b == 9 || b == 10 || b == 11 || b == 12 || b == 13 || b == 32 || b == 133 || b == 160

/-- State of the scanning loop of `count`: the accumulated counts plus the
`inWord` flag (src/main.go lines 36, 41). -/
structure ScanState where
  counts : Counts
  inWord : Bool
deriving DecidableEq, Repr

/-- Body of the per-byte loop of `count` (src/main.go lines 52-74): count a
newline, then run the word state machine. -/
def procByte (s : ScanState) (char : Nat) : ScanState :=
  let s1 := if char == 10 then
    { s with counts := { s.counts with lines := s.counts.lines + 1 } } else s
  if isSpace char then
    { s1 with inWord := false }
  else if s1.inWord then
    s1
  else
    { s1 with counts := { s1.counts with words := s1.counts.words + 1 }, inWord := true }

/-- One iteration of the read loop of `count` (src/main.go lines 46-74):
`counts.Bytes += n` for the chunk just read, then the per-byte loop over it. -/
def procChunk (s : ScanState) (buf : List Nat) : ScanState :=
  buf.foldl procByte
    { s with counts := { s.counts with bytes := s.counts.bytes + (buf.length : Int) } }

/-- The `count` function (src/main.go lines 35-87) on the clean-EOF path: the
stream arrives as a sequence of chunks (the successive `br.Read` results),
state starts at all-zero counts with `inWord = false`, and the accumulated
counts are returned. -/
def count (chunks : List (List Nat)) : Counts :=
  (chunks.foldl procChunk ⟨⟨0, 0, 0⟩, false⟩).counts

/-- Counting a stream delivered as one single chunk. -/
def wc (data : List Nat) : Counts :=
  count [data]

/-! ### Specification-side functions (from the spec wording, for comparison) -/

/-- Number of maximal runs of consecutive non-whitespace bytes, counted at
their right ends: a run ends at a non-space byte that is last in the stream
or is followed by a space byte. -/
def numRuns : List Nat → Nat
  | [] => 0
  | [b] => if isSpace b then 0 else 1
  | a :: b :: rest => (if !isSpace a && isSpace b then 1 else 0) + numRuns (b :: rest)

/-- The number of words contributed by a stream suffix when the scanner starts
in word-state `inw`. -/
def wordsFrom : Bool → List Nat → Nat
  | _, [] => 0
  | inw, b :: rest =>
    if isSpace b then wordsFrom false rest
    else if inw then wordsFrom true rest
    else 1 + wordsFrom true rest

/-- The word-state after scanning a list of bytes starting from state `inw`. -/
def inWordAfter : Bool → List Nat → Bool
  | inw, [] => inw
  | _, b :: rest => inWordAfter (!isSpace b) rest

/-- Whether a stream begins with a non-space byte. -/
def headNonspace : List Nat → Bool
  | [] => false
  | b :: _ => !isSpace b

/-! ### Characterisation of the per-byte step -/

/-- Replace the bytes field of a scan state. -/
def withBytes (s : ScanState) (v : Int) : ScanState :=
  { s with counts := { s.counts with bytes := v } }

theorem procByte_eq (s : ScanState) (c : Nat) :
    procByte s c =
      ⟨⟨s.counts.lines + (if c == 10 then 1 else 0),
        s.counts.words + (if !isSpace c && !s.inWord then 1 else 0),
        s.counts.bytes⟩,
       !isSpace c⟩ := by
  obtain ⟨⟨l, w, b⟩, iw⟩ := s
  by_cases hs : isSpace c
  · by_cases hn : c = 10
    · subst hn
      cases iw <;> simp [procByte, show isSpace 10 = true from rfl]
    · cases iw <;> simp [procByte, hs, hn]
  · have hn : ¬ (c = 10) := by
      intro h; rw [h] at hs; exact hs rfl
    cases iw <;> simp [procByte, hs, hn]

theorem procByte_withBytes (s : ScanState) (v : Int) (c : Nat) :
    procByte (withBytes s v) c = withBytes (procByte s c) v := by
  simp [procByte_eq, withBytes]

theorem foldl_procByte_withBytes (l : List Nat) :
    ∀ (s : ScanState) (v : Int),
      l.foldl procByte (withBytes s v) = withBytes (l.foldl procByte s) v := by
  induction l with
  | nil => intro s v; rfl
  | cons c t ih => intro s v; simp [List.foldl_cons, procByte_withBytes, ih]

theorem foldl_procByte_bytes (l : List Nat) :
    ∀ s : ScanState, (l.foldl procByte s).counts.bytes = s.counts.bytes := by
  induction l with
  | nil => intro s; rfl
  | cons c t ih => intro s; rw [List.foldl_cons, ih, procByte_eq]

theorem foldl_procByte_lines (l : List Nat) :
    ∀ s : ScanState,
      (l.foldl procByte s).counts.lines = s.counts.lines + (l.count 10 : Int) := by
  induction l with
  | nil => intro s; simp
  | cons c t ih =>
    intro s
    rw [List.foldl_cons, ih, procByte_eq]
    by_cases h : c = 10 <;>
      simp [h, List.count_cons] <;> ring

theorem foldl_procByte_inWord (l : List Nat) :
    ∀ s : ScanState, (l.foldl procByte s).inWord = inWordAfter s.inWord l := by
  induction l with
  | nil => intro s; rfl
  | cons c t ih => intro s; rw [List.foldl_cons, ih, procByte_eq]; rfl

theorem foldl_procByte_words (l : List Nat) :
    ∀ s : ScanState,
      (l.foldl procByte s).counts.words
        = s.counts.words + (wordsFrom s.inWord l : Int) := by
  induction l with
  | nil => intro s; simp [wordsFrom]
  | cons c t ih =>
    intro s
    rw [List.foldl_cons, ih, procByte_eq]
    by_cases hs : isSpace c
    · simp [wordsFrom, hs]
    · by_cases hw : s.inWord
      · simp [wordsFrom, hs, hw]
      · simp [wordsFrom, hs, hw]; ring

/-! ### Chunk invariance -/

theorem withBytes_self (s : ScanState) : withBytes s s.counts.bytes = s := by
  obtain ⟨⟨l, w, b⟩, iw⟩ := s; rfl

theorem withBytes_withBytes (s : ScanState) (v w : Int) :
    withBytes (withBytes s v) w = withBytes s w := rfl

theorem withBytes_bytes (s : ScanState) (v : Int) :
    (withBytes s v).counts.bytes = v := rfl

theorem procChunk_eq (s : ScanState) (buf : List Nat) :
    procChunk s buf
      = withBytes (buf.foldl procByte s) (s.counts.bytes + (buf.length : Int)) := by
  have h : ({ s with counts := { s.counts with bytes := s.counts.bytes + (buf.length : Int) } }
      : ScanState) = withBytes s (s.counts.bytes + (buf.length : Int)) := rfl
  rw [procChunk, h, foldl_procByte_withBytes]

theorem foldl_procChunk_eq (chunks : List (List Nat)) :
    ∀ s : ScanState,
      chunks.foldl procChunk s
        = withBytes (chunks.flatten.foldl procByte s)
            (s.counts.bytes + (chunks.flatten.length : Int)) := by
  induction chunks with
  | nil =>
    intro s
    simp only [List.foldl_nil, List.flatten_nil, List.length_nil]
    rw [show ((0 : Nat) : Int) = 0 from rfl, add_zero, withBytes_self]
  | cons c cs ih =>
    intro s
    rw [List.foldl_cons, ih, procChunk_eq, foldl_procByte_withBytes, withBytes_withBytes,
      withBytes_bytes, List.flatten_cons, ← List.foldl_append, List.length_append]
    congr 1
    push_cast
    ring

theorem count_eq_flatten (chunks : List (List Nat)) :
    count chunks = count [chunks.flatten] := by
  rw [count, count, foldl_procChunk_eq, foldl_procChunk_eq]
  simp

/-! ### The three counters of a single stream -/

theorem wc_bytes (data : List Nat) : (wc data).bytes = (data.length : Int) := by
  rw [wc, count, List.foldl_cons, List.foldl_nil, procChunk_eq, withBytes_bytes]
  simp

theorem wc_lines (data : List Nat) : (wc data).lines = (data.count 10 : Int) := by
  rw [wc, count, List.foldl_cons, List.foldl_nil, procChunk_eq]
  have h := foldl_procByte_lines data ⟨⟨0, 0, 0⟩, false⟩
  simp only [withBytes]
  simpa using h

theorem wc_words_from (data : List Nat) :
    (wc data).words = (wordsFrom false data : Int) := by
  rw [wc, count, List.foldl_cons, List.foldl_nil, procChunk_eq]
  have h := foldl_procByte_words data ⟨⟨0, 0, 0⟩, false⟩
  simp only [withBytes]
  simpa using h

/-! ### Words equal maximal runs -/

theorem wordsFrom_cons (inw : Bool) (b : Nat) (rest : List Nat) :
    wordsFrom inw (b :: rest)
      = if isSpace b then wordsFrom false rest
        else if inw then wordsFrom true rest
        else 1 + wordsFrom true rest := by
  cases inw <;> by_cases h : isSpace b <;> simp [wordsFrom, h]

theorem numRuns_cons2 (a b : Nat) (rest : List Nat) :
    numRuns (a :: b :: rest)
      = (if !isSpace a && isSpace b then 1 else 0) + numRuns (b :: rest) := by
  simp [numRuns]

/-- Joint induction: started out of a word the scanner counts exactly the
maximal runs; started inside a word it misses exactly the run (if any) that
the head of the stream continues. -/
theorem wordsFrom_numRuns (l : List Nat) :
    wordsFrom false l = numRuns l
      ∧ numRuns l = wordsFrom true l + (if headNonspace l then 1 else 0) := by
  induction l with
  | nil => simp [wordsFrom, numRuns, headNonspace]
  | cons a t ih =>
    cases t with
    | nil =>
      by_cases hs : isSpace a <;>
        simp [wordsFrom, numRuns, headNonspace, hs]
    | cons b r =>
      obtain ⟨ih1, ih2⟩ := ih
      have hh : headNonspace (b :: r) = !isSpace b := rfl
      rw [hh] at ih2
      constructor
      · rw [wordsFrom_cons, numRuns_cons2]
        by_cases hs : isSpace a <;> by_cases hb : isSpace b <;>
          simp [hs, hb, ih1] at ih2 ⊢ <;> omega
      · rw [numRuns_cons2, wordsFrom_cons]
        have hh2 : headNonspace (a :: b :: r) = !isSpace a := rfl
        rw [hh2]
        by_cases hs : isSpace a <;> by_cases hb : isSpace b <;>
          simp [hs, hb, ih1] at ih2 ⊢ <;> omega

theorem wc_words (data : List Nat) : (wc data).words = (numRuns data : Int) := by
  rw [wc_words_from, (wordsFrom_numRuns data).1]

/-! ### Concatenation -/

theorem wordsFrom_append (A : List Nat) :
    ∀ (inw : Bool) (B : List Nat),
      wordsFrom inw (A ++ B) = wordsFrom inw A + wordsFrom (inWordAfter inw A) B := by
  induction A with
  | nil => intro inw B; simp [wordsFrom, inWordAfter]
  | cons a t ih =>
    intro inw B
    have hstep : ∀ inw2 : Bool, inWordAfter inw2 (a :: t) = inWordAfter (!isSpace a) t :=
      fun _ => rfl
    rw [List.cons_append, wordsFrom_cons, wordsFrom_cons, hstep]
    by_cases hs : isSpace a <;> cases inw <;> simp [hs, ih] <;> omega

theorem inWordAfter_getLast_space (A : List Nat) :
    ∀ (inw : Bool) (x : Nat), A.getLast? = some x → isSpace x = true →
      inWordAfter inw A = false := by
  induction A with
  | nil => intro inw x h _; simp at h
  | cons a t ih =>
    intro inw x h hx
    cases t with
    | nil =>
      simp at h
      subst h
      simp [inWordAfter, hx]
    | cons b r =>
      have h2 : (b :: r).getLast? = some x := by
        rwa [List.getLast?_cons_cons] at h
      exact ih (!isSpace a) x h2 hx

theorem wordsFrom_head_space (inw : Bool) (B : List Nat) (y : Nat)
    (h : B.head? = some y) (hy : isSpace y = true) :
    wordsFrom inw B = wordsFrom false B := by
  cases B with
  | nil => simp at h
  | cons b r =>
    simp at h
    subst h
    rw [wordsFrom_cons, wordsFrom_cons, hy]
    simp

/-! ### Bound on runs -/

theorem numRuns_le_length (l : List Nat) : numRuns l ≤ l.length := by
  induction l with
  | nil => simp [numRuns]
  | cons a t ih =>
    cases t with
    | nil => by_cases hs : isSpace a <;> simp [numRuns, hs]
    | cons b r =>
      rw [numRuns_cons2]
      simp only [List.length_cons] at ih ⊢
      by_cases hs : isSpace a <;> by_cases hb : isSpace b <;>
        simp [hs, hb] <;> omega

/-! ### Output formatting (src/main.go lines 91-113) -/

/-- `fmt.Sprintf` with verb `%*d` and width `w`: the decimal rendering of the
integer, left-padded with spaces to width `w` (unchanged when already at
least `w` characters long). -/
def padLeft (w : Nat) (s : String) : String :=
  String.mk (List.replicate (w - s.length) ' ') ++ s

/-- Go `strings.Join`: concatenate the parts with the separator between
consecutive parts. -/
def stringsJoin (parts : List String) (sep : String) : String :=
  match parts with
  | [] => ""
  | p :: rest => rest.foldl (fun acc q => acc ++ sep ++ q) p

/-- formatOutput (src/main.go lines 91-113): build the parts list by the four
appends, then `strings.Join(parts, "")`. -/
def formatOutput (counts : Counts) (flags : Flags) (filename : String) : String :=
  let parts : List String :=
    (if flags.showLines then [padLeft 8 (toString counts.lines)] else []) ++
    (if flags.showWords then [padLeft 8 (toString counts.words)] else []) ++
    (if flags.showBytes then [padLeft 8 (toString counts.bytes)] else []) ++
    (if filename ≠ "" then [" " ++ filename] else [])
  stringsJoin parts ""

theorem stringsJoin_empty_sep (parts : List String) :
    stringsJoin parts "" = parts.foldl (fun acc q => acc ++ q) "" := by
  match parts with
  | [] => rfl
  | p :: rest =>
    rw [stringsJoin, List.foldl_cons, String.empty_append]
    have h : ∀ (l : List String) (a : String),
        l.foldl (fun acc q => acc ++ "" ++ q) a = l.foldl (fun acc q => acc ++ q) a := by
      intro l
      induction l with
      | nil => intro a; rfl
      | cons x xs ih => intro a; rw [List.foldl_cons, List.foldl_cons, String.append_empty, ih]
    exact h rest p

theorem foldl_append_strings (l : List String) :
    ∀ a : String, l.foldl (fun acc q => acc ++ q) a = a ++ l.foldl (fun acc q => acc ++ q) "" := by
  induction l with
  | nil => intro a; rw [List.foldl_nil, List.foldl_nil, String.append_empty]
  | cons x xs ih =>
    intro a
    rw [List.foldl_cons, List.foldl_cons, ih, ih (("" : String) ++ x), String.empty_append,
      String.append_assoc]

/-! ### Driver model (src/main.go lines 115-219)

The outcome of `count` on one source is abstracted as a `CountResult` (the
pair `(Counts, error)` Go returns); a command-line argument is a
`FileSource`: the literal `-`, or a named path that either fails to open or
opens onto a stream with a given count outcome.  The model records the
`os.Open`/`File.Close` calls by argument position so that the resource
claims can be stated.  Go semantics modelled exactly: `defer` inside the
loop pushes the close onto a stack run when `main` returns, and
`os.Exit(1)` terminates without running deferred calls. -/

/-- Result of one `count` call as seen by `main`: clean counts, or an error
with the partially accumulated counts (discarded by `main`). -/
inductive CountResult
  | ok (c : Counts)
  | err (c : Counts)
deriving DecidableEq, Repr

/-- One command-line argument: `-` (standard input), or a named file that
fails to open (`none`) or opens and yields a count outcome. -/
inductive FileSource
  | dash (res : CountResult)
  | named (name : String) (res : Option CountResult)
deriving DecidableEq, Repr

/-- Fieldwise sum, as `main` accumulates `totalCounts` (lines 203-205). -/
def addCounts (a b : Counts) : Counts :=
  ⟨a.lines + b.lines, a.words + b.words, a.bytes + b.bytes⟩

/-- Mutable state of the loop over filenames in `main`, plus the recorded
open/close events and the stack of deferred closes. -/
structure DriverState where
  total : Counts
  filesProcessed : Nat
  errorsOccurred : Bool
  out : List String
  diags : List String
  deferredCloses : List Nat
  closes : List Nat
  opens : List Nat
deriving DecidableEq, Repr

/-- Body of the loop over filenames (src/main.go lines 161-207) for the
argument at position `idx`. -/
def stepSource (flags : Flags) (idx : Nat) (st : DriverState) (src : FileSource) :
    DriverState :=
  match src with
  | .dash res =>
    match res with
    | .err _ => { st with diags := st.diags ++ [""], errorsOccurred := true }
    | .ok c =>
      { st with out := st.out ++ [formatOutput c flags ""],
                total := addCounts st.total c,
                filesProcessed := st.filesProcessed + 1 }
  | .named name none =>
    { st with diags := st.diags ++ [name], errorsOccurred := true }
  | .named name (some res) =>
    let st1 := { st with opens := st.opens ++ [idx],
                         deferredCloses := idx :: st.deferredCloses }
    match res with
    | .err _ =>
      { st1 with diags := st1.diags ++ [name], errorsOccurred := true,
                 closes := st1.closes ++ [idx] }
    | .ok c =>
      { st1 with out := st1.out ++ [formatOutput c flags name],
                 total := addCounts st1.total c,
                 filesProcessed := st1.filesProcessed + 1 }

/-- The loop over filenames, carrying the argument position. -/
def driveLoop (flags : Flags) : Nat → DriverState → List FileSource → DriverState
  | _, st, [] => st
  | idx, st, s :: rest => driveLoop flags (idx + 1) (stepSource flags idx st s) rest

/-- Observable outcome of one program run. -/
structure RunResult where
  out : List String
  diags : List String
  exitCode : Nat
  totalCounts : Counts
  filesProcessed : Nat
  opens : List Nat
  closes : List Nat
deriving DecidableEq, Repr

/-- Initial driver state (lines 144-146). -/
def initState : DriverState :=
  ⟨⟨0, 0, 0⟩, 0, false, [], [], [], [], []⟩

/-- The named-arguments branch of `main` (src/main.go lines 159-218): run the
loop, print the total line when more than one file was processed, then either
`os.Exit(1)` — which does not run the deferred closes — or return from
`main`, which runs the deferred close stack. -/
def processFiles (flags : Flags) (srcs : List FileSource) : RunResult :=
  let st := driveLoop flags 0 initState srcs
  let out := st.out ++
    (if 1 < st.filesProcessed then [formatOutput st.total flags "total"] else [])
  if st.errorsOccurred then
    ⟨out, st.diags, 1, st.total, st.filesProcessed, st.opens, st.closes⟩
  else
    ⟨out, st.diags, 0, st.total, st.filesProcessed, st.opens,
      st.closes ++ st.deferredCloses⟩

/-- The empty-argument branch of `main` (src/main.go lines 149-158): count
standard input; on error print a diagnostic and `os.Exit(1)`, otherwise print
the result with an empty display name.  No total line is ever printed. -/
def runStdin (flags : Flags) (res : CountResult) : RunResult :=
  match res with
  | .err _ => ⟨[], [""], 1, ⟨0, 0, 0⟩, 0, [], []⟩
  | .ok c => ⟨[formatOutput c flags ""], [], 0, c, 1, [], []⟩

/-! ### Specification-side views of a source list -/

/-- Whether a source fails (to open or to count). -/
def srcFailed : FileSource → Bool
  | .dash (.err _) => true
  | .dash (.ok _) => false
  | .named _ none => true
  | .named _ (some (.err _)) => true
  | .named _ (some (.ok _)) => false

/-- The display name of a source (empty for standard input). -/
def srcName : FileSource → String
  | .dash _ => ""
  | .named n _ => n

/-- The counts of a successful source. -/
def srcOk : FileSource → Option Counts
  | .dash (.ok c) => some c
  | .named _ (some (.ok c)) => some c
  | _ => none

/-- Counts of the successfully processed sources, in order. -/
def succCounts (srcs : List FileSource) : List Counts :=
  srcs.filterMap srcOk

/-- Number of successfully processed sources. -/
def numSucceeded (srcs : List FileSource) : Nat :=
  (succCounts srcs).length

/-- Fieldwise sum of a list of counts. -/
def sumCounts (l : List Counts) : Counts :=
  l.foldl addCounts ⟨0, 0, 0⟩

/-- The per-source output lines of the successful sources, in order. -/
def succLines (flags : Flags) (srcs : List FileSource) : List String :=
  srcs.filterMap (fun s => (srcOk s).map (fun c => formatOutput c flags (srcName s)))

/-- Positions (from `i`) of the sources that open a file. -/
def opensSpec : Nat → List FileSource → List Nat
  | _, [] => []
  | i, s :: rest =>
    (match s with
     | .named _ (some _) => [i]
     | _ => []) ++ opensSpec (i + 1) rest

/-- Positions (from `i`) of the sources whose count fails after a successful
open: exactly the files closed explicitly inside the loop. -/
def errCloses : Nat → List FileSource → List Nat
  | _, [] => []
  | i, s :: rest =>
    (match s with
     | .named _ (some (.err _)) => [i]
     | _ => []) ++ errCloses (i + 1) rest

/-- Full characterisation of the loop over filenames. -/
theorem driveLoop_eq (flags : Flags) (srcs : List FileSource) :
    ∀ (i : Nat) (st : DriverState),
      driveLoop flags i st srcs =
        { total := (succCounts srcs).foldl addCounts st.total,
          filesProcessed := st.filesProcessed + numSucceeded srcs,
          errorsOccurred := st.errorsOccurred || srcs.any srcFailed,
          out := st.out ++ succLines flags srcs,
          diags := st.diags ++ (srcs.filter srcFailed).map srcName,
          deferredCloses := (opensSpec i srcs).reverse ++ st.deferredCloses,
          closes := st.closes ++ errCloses i srcs,
          opens := st.opens ++ opensSpec i srcs } := by
  induction srcs with
  | nil =>
    intro i st
    obtain ⟨tc, fp, eo, o, d, dc, cl, op⟩ := st
    simp [driveLoop, succCounts, numSucceeded, succLines, opensSpec, errCloses]
  | cons s rest ih =>
    intro i st
    rw [driveLoop, ih]
    cases s with
    | dash res =>
      cases res with
      | err c =>
        simp [stepSource, succCounts, numSucceeded, succLines, opensSpec, errCloses,
          srcFailed, srcName, srcOk]
      | ok c =>
        simp [stepSource, succCounts, numSucceeded, succLines, opensSpec, errCloses,
          srcFailed, srcName, srcOk]
        omega
    | named name res =>
      match res with
      | none =>
        simp [stepSource, succCounts, numSucceeded, succLines, opensSpec, errCloses,
          srcFailed, srcName, srcOk]
      | some (.err c) =>
        simp [stepSource, succCounts, numSucceeded, succLines, opensSpec, errCloses,
          srcFailed, srcName, srcOk]
      | some (.ok c) =>
        simp [stepSource, succCounts, numSucceeded, succLines, opensSpec, errCloses,
          srcFailed, srcName, srcOk]
        omega

theorem flatten_singletons (l : List Nat) : (l.map (fun b => [b])).flatten = l := by
  induction l with
  | nil => rfl
  | cons a t ih => simp [ih]

/-- All three display flags set, as after the all-false default rule. -/
def allFlags : Flags := ⟨true, true, true⟩

/-! ### The claims -/

/-- C1: for every byte stream, the `words` field of the `Counts` returned by
`count` equals the number of maximal runs of consecutive non-whitespace
bytes, each byte classified individually by the byte-wise whitespace
predicate. -/
theorem claim1_words_eq_runs (data : List Nat) :
    (wc data).words = (numRuns data : Int) :=
  wc_words data

/-- C2: counting a stream delivered in any sequence of chunks — in particular
byte-by-byte in chunks of size 1 — yields the same `Counts` as counting it
delivered in one single chunk. -/
theorem claim2_chunk_invariance (chunks : List (List Nat)) :
    count chunks = count [chunks.flatten]
      ∧ count (chunks.flatten.map (fun b => [b])) = count [chunks.flatten] := by
  refine ⟨count_eq_flatten chunks, ?_⟩
  have h := count_eq_flatten (chunks.flatten.map (fun b => [b]))
  rwa [flatten_singletons] at h

/-- C3: the `lines` field of the `Counts` returned by `count` equals the
number of newline bytes (value 10) in the stream; no other byte counts. -/
theorem claim3_lines_eq_newlines (data : List Nat) :
    (wc data).lines = (data.count 10 : Int) :=
  wc_lines data

/-- C4: the `bytes` field equals the exact length of the stream, and the
empty stream yields `Counts{0,0,0}`. -/
theorem claim4_bytes_eq_length (data : List Nat) :
    (wc data).bytes = (data.length : Int) ∧ wc [] = ⟨0, 0, 0⟩ :=
  ⟨wc_bytes data, by decide⟩

/-- C5: with named sources, each failed source produces exactly one
diagnostic and no result line, contributes nothing to the running total, and
processing continues; the exit status is 1 exactly when some source failed
to open or to count, and 0 otherwise. -/
theorem claim5_partial_failure (flags : Flags) (srcs : List FileSource)
    (h : srcs ≠ []) :
    (processFiles flags srcs).exitCode = (if srcs.any srcFailed then 1 else 0)
      ∧ (processFiles flags srcs).diags = (srcs.filter srcFailed).map srcName
      ∧ (processFiles flags srcs).out
          = succLines flags srcs
            ++ (if 1 < numSucceeded srcs then
                  [formatOutput (sumCounts (succCounts srcs)) flags "total"] else [])
      ∧ (processFiles flags srcs).totalCounts = sumCounts (succCounts srcs) := by
  unfold processFiles
  rw [driveLoop_eq]
  by_cases ha : srcs.any srcFailed <;>
    simp [ha, initState, sumCounts, numSucceeded, succCounts]

/-- Witness for C5 at a concrete run: first file missing, second succeeds. -/
def c5srcs : List FileSource :=
  [.named "missing" none, .named "present" (some (.ok ⟨1, 2, 3⟩))]

theorem claim5_partial_failure_witness :
    c5srcs ≠ []
      ∧ ((processFiles allFlags c5srcs).exitCode
            = (if c5srcs.any srcFailed then 1 else 0)
        ∧ (processFiles allFlags c5srcs).diags = (c5srcs.filter srcFailed).map srcName
        ∧ (processFiles allFlags c5srcs).out
            = succLines allFlags c5srcs
              ++ (if 1 < numSucceeded c5srcs then
                    [formatOutput (sumCounts (succCounts c5srcs)) allFlags "total"] else [])
        ∧ (processFiles allFlags c5srcs).totalCounts = sumCounts (succCounts c5srcs)) :=
  ⟨by decide, claim5_partial_failure allFlags c5srcs (by decide)⟩

/-- C6: a line labeled "total" with the fieldwise sum of the successful
sources is appended exactly when more than one source was successfully
processed; the implicit standard-input run prints a single result line and
never a total. -/
theorem claim6_total_line (flags : Flags) (srcs : List FileSource)
    (h : srcs ≠ []) (res : CountResult) :
    (processFiles flags srcs).out
        = succLines flags srcs
          ++ (if 1 < numSucceeded srcs then
                [formatOutput (sumCounts (succCounts srcs)) flags "total"] else [])
      ∧ (processFiles flags srcs).filesProcessed = numSucceeded srcs
      ∧ (runStdin flags res).out
          = (match res with
             | .ok c => [formatOutput c flags ""]
             | .err _ => []) := by
  refine ⟨?_, ?_, ?_⟩
  · unfold processFiles
    rw [driveLoop_eq]
    by_cases ha : srcs.any srcFailed <;>
      simp [ha, initState, sumCounts, numSucceeded, succCounts]
  · unfold processFiles
    rw [driveLoop_eq]
    by_cases ha : srcs.any srcFailed <;>
      simp [ha, initState, numSucceeded, succCounts]
  · cases res <;> rfl

theorem claim6_total_line_witness :
    c5srcs ≠ []
      ∧ ((processFiles allFlags c5srcs).out
            = succLines allFlags c5srcs
              ++ (if 1 < numSucceeded c5srcs then
                    [formatOutput (sumCounts (succCounts c5srcs)) allFlags "total"] else [])
        ∧ (processFiles allFlags c5srcs).filesProcessed = numSucceeded c5srcs
        ∧ (runStdin allFlags (.ok ⟨1, 2, 3⟩)).out
            = (match (CountResult.ok ⟨1, 2, 3⟩ : CountResult) with
               | .ok c => [formatOutput c allFlags ""]
               | .err _ => [])) :=
  ⟨by decide, claim6_total_line allFlags c5srcs (by decide) (.ok ⟨1, 2, 3⟩)⟩

/-- C7: the formatted line is exactly the selected count fields in the fixed
order lines, words, bytes, each right-aligned to width 8, joined with no
separator, with the display name appended after one space exactly when it is
non-empty. -/
theorem claim7_format (counts : Counts) (flags : Flags) (filename : String) :
    formatOutput counts flags filename
      = (if flags.showLines then padLeft 8 (toString counts.lines) else "")
        ++ (if flags.showWords then padLeft 8 (toString counts.words) else "")
        ++ (if flags.showBytes then padLeft 8 (toString counts.bytes) else "")
        ++ (if filename = "" then "" else " " ++ filename) := by
  obtain ⟨bl, bw, bb⟩ := flags
  by_cases h : filename = "" <;> cases bl <;> cases bw <;> cases bb <;>
    simp [formatOutput, stringsJoin_empty_sep, h, List.foldl_cons, List.foldl_nil,
      String.empty_append, String.append_empty, String.append_assoc]

/-- C8: lines and bytes are additive under concatenation; words is additive
whenever one side is empty or the boundary byte on either side is
whitespace, and is not additive in general ("foo" ++ "bar" is one word). -/
theorem claim8_concat (A B : List Nat) :
    ((wc (A ++ B)).lines = (wc A).lines + (wc B).lines
      ∧ (wc (A ++ B)).bytes = (wc A).bytes + (wc B).bytes)
    ∧ ((A = [] ∨ B = []
        ∨ (∃ x, A.getLast? = some x ∧ isSpace x = true)
        ∨ (∃ y, B.head? = some y ∧ isSpace y = true))
       → (wc (A ++ B)).words = (wc A).words + (wc B).words)
    ∧ (wc ([102, 111, 111] ++ [98, 97, 114])).words = 1
    ∧ (wc [102, 111, 111]).words + (wc [98, 97, 114]).words = 2 := by
  refine ⟨⟨?_, ?_⟩, ?_, by decide, by decide⟩
  · rw [wc_lines, wc_lines, wc_lines, List.count_append]
    push_cast
    ring
  · rw [wc_bytes, wc_bytes, wc_bytes, List.length_append]
    push_cast
    ring
  · intro h
    rw [wc_words_from, wc_words_from, wc_words_from, wordsFrom_append]
    rcases h with h | h | ⟨x, hx, hxs⟩ | ⟨y, hy, hys⟩
    · subst h
      simp [wordsFrom, inWordAfter]
    · subst h
      simp [wordsFrom]
    · rw [inWordAfter_getLast_space A false x hx hxs]
      push_cast
      ring
    · rw [wordsFrom_head_space (inWordAfter false A) B y hy hys]
      push_cast
      ring

theorem claim8_concat_witness :
    (∃ x, ([104, 105, 32] : List Nat).getLast? = some x ∧ isSpace x = true)
      ∧ (wc ([104, 105, 32] ++ [121, 111])).words
          = (wc [104, 105, 32]).words + (wc [121, 111]).words :=
  ⟨⟨32, by decide, by decide⟩,
   (claim8_concat [104, 105, 32] [121, 111]).2.1
     (Or.inr (Or.inr (Or.inl ⟨32, by decide, by decide⟩)))⟩

/-- C9 is false of the code: with two named files where the first opens but
its count fails and the second succeeds, both files are opened (positions 0
and 1) but only file 0 is ever closed — `errorsOccurred` makes `main` leave
through `os.Exit(1)`, which never runs the `Close` calls deferred inside the
loop, so file 1 leaks. -/
def c9srcs : List FileSource :=
  [.named "a" (some (.err ⟨0, 0, 0⟩)), .named "b" (some (.ok ⟨1, 2, 3⟩))]

theorem claim9_close_leak :
    (processFiles allFlags c9srcs).opens = [0, 1]
      ∧ (processFiles allFlags c9srcs).closes = [0] := by
  decide

/-- C10: all three counters are non-negative and neither the line count nor
the word count can exceed the byte count. -/
theorem claim10_invariants (data : List Nat) :
    0 ≤ (wc data).lines ∧ (wc data).lines ≤ (wc data).bytes
      ∧ 0 ≤ (wc data).words ∧ (wc data).words ≤ (wc data).bytes
      ∧ 0 ≤ (wc data).bytes := by
  rw [wc_lines, wc_words, wc_bytes]
  refine ⟨Int.natCast_nonneg _, ?_, Int.natCast_nonneg _, ?_, Int.natCast_nonneg _⟩
  · exact_mod_cast List.count_le_length 10 data
  · exact_mod_cast numRuns_le_length data

end Gowc
